import Mathlib

/-!
Verification of the mpx covert-metadata video format against its
natural-language specification.  The definitions below are shallow
embeddings of the Python source:

* `LSBLayer` models `src/layers/LSBLayer.py` (the covert pixel layer);
  frames are flattened lists of 8-bit samples, machine bytes are `Nat`
  with explicit bounds.
* `MPXverify` models `src/src/MPXVerifier.py::MPXVerifier.verify`.
* `MP5decode` models `src/MP5Decoder.py::MP5Decoder.decode`.
* `has_metadata` models `src/layers/AtomLayer.py::AtomLayer.has_metadata`.
-/

/-- Numeric value of one bit character, `int(data_chunk[i])` on a '0'/'1'
character in the Python source. -/
def bitVal (b : Bool) : Nat := if b then 1 else 0

/-- One sample update of the embedder: `(pixel & 0xFE) | secret_bit`
(`LSBLayer.py` lines 51-54).  Samples are uint8 (`< 256`). -/
def setLow (v : Nat) (b : Bool) : Nat := (v &&& 254) ||| bitVal b

/-- Low-bit extraction `pixel & 1` (`LSBLayer.py` lines 174, 190, 211),
read as a bit. -/
def lowBit (v : Nat) : Bool := decide (v % 2 = 1)

/-- LSB-first binary digits of `n`, with explicit fuel so that the
definition is structural (the fuel is set to `n` itself by `pyBin`,
which always suffices since the argument halves each step). -/
def bitsLEGo : Nat → Nat → List Bool
  | _, 0 => []
  | 0, _ + 1 => []
  | fuel + 1, n + 1 => decide ((n + 1) % 2 = 1) :: bitsLEGo fuel ((n + 1) / 2)

/-- Binary digits of `n`, MSB first: Python `format(n, 'b')` (with the
empty list standing for `"0"` at `n = 0`; callers always pad). -/
def pyBin (n : Nat) : List Bool := (bitsLEGo n n).reverse

/-- Python `format(n, '0{w}b')`: MSB-first digits of `n` left-padded
with zeros to width `w` (longer than `w` if `n ≥ 2 ^ w`). -/
def pyBinPad (n w : Nat) : List Bool :=
  List.replicate (w - (pyBin n).length) false ++ pyBin n

/-- Python `int(s, 2)` on a '0'/'1' string, MSB first. -/
def bitsToNat (l : List Bool) : Nat := l.foldl (fun a b => 2 * a + bitVal b) 0

/-- `LSBLayer._text_to_binary` (lines 16-19): each character of the
string (a Unicode code point) contributes `format(ord(c), '08b')`,
which is 8 bits when `ord c < 256` and MORE than 8 bits otherwise. -/
def textToBinary (s : List Nat) : List Bool :=
  (s.map (fun c => pyBinPad c 8)).flatten

/-- `LSBLayer._binary_to_text` (lines 21-25): split the bit string into
8-bit groups, decode each complete group with `chr(int(c, 2))`, and keep
only groups of length exactly 8 (a trailing partial group is dropped). -/
def binaryToText : List Bool → List Nat
  | b1 :: b2 :: b3 :: b4 :: b5 :: b6 :: b7 :: b8 :: rest =>
      bitsToNat [b1, b2, b3, b4, b5, b6, b7, b8] :: binaryToText rest
  | _ => []

/-- UTF-8 encoding of one Unicode scalar, as Python `str.encode('utf-8')`
produces for each character. -/
def utf8EncodeChar (c : Nat) : List Nat :=
  if c < 128 then [c]
  else if c < 2048 then [192 + c / 64, 128 + c % 64]
  else if c < 65536 then [224 + c / 4096, 128 + c / 64 % 64, 128 + c % 64]
  else [240 + c / 262144, 128 + c / 4096 % 64, 128 + c / 64 % 64, 128 + c % 64]

/-- Python `str.encode('utf-8')` over a list of code points. -/
def utf8Encode (s : List Nat) : List Nat := (s.map utf8EncodeChar).flatten

/-- One step of the strict Python UTF-8 decoder: given the lead byte and
the bytes after it, return the decoded code point and the remaining
bytes, or `none` on a malformed sequence (stray continuation byte,
overlong form, surrogate, lead above U+10FFFF, truncated sequence). -/
def utf8Step (b : Nat) (rest : List Nat) : Option (Nat × List Nat) :=
  if b < 128 then some (b, rest)
  else if b < 194 then none
  else if b < 224 then
    match rest with
    | c1 :: r1 =>
      if 128 ≤ c1 ∧ c1 < 192 then some ((b - 192) * 64 + (c1 - 128), r1)
      else none
    | [] => none
  else if b < 240 then
    match rest with
    | c1 :: c2 :: r2 =>
      if (if b = 224 then 160 ≤ c1 ∧ c1 < 192
          else if b = 237 then 128 ≤ c1 ∧ c1 < 160
          else 128 ≤ c1 ∧ c1 < 192) ∧ 128 ≤ c2 ∧ c2 < 192 then
        some ((b - 224) * 4096 + (c1 - 128) * 64 + (c2 - 128), r2)
      else none
    | _ => none
  else if b < 245 then
    match rest with
    | c1 :: c2 :: c3 :: r3 =>
      if (if b = 240 then 144 ≤ c1 ∧ c1 < 192
          else if b = 244 then 128 ≤ c1 ∧ c1 < 144
          else 128 ≤ c1 ∧ c1 < 192) ∧ 128 ≤ c2 ∧ c2 < 192 ∧
          128 ≤ c3 ∧ c3 < 192 then
        some ((b - 240) * 262144 + (c1 - 128) * 4096 +
          (c2 - 128) * 64 + (c3 - 128), r3)
      else none
    | _ => none
  else none

/-- Decoder loop with explicit fuel (each step consumes at least one
byte, so fuel equal to the byte count always suffices). -/
def utf8DecodeGo : Nat → List Nat → Option (List Nat)
  | _, [] => some []
  | 0, _ :: _ => none
  | fuel + 1, b :: rest =>
    match utf8Step b rest with
    | none => none
    | some (c, r) => (utf8DecodeGo fuel r).map (fun t => c :: t)

/-- Python `bytes.decode('utf-8')` (strict). -/
def utf8Decode (l : List Nat) : Option (List Nat) := utf8DecodeGo l.length l

-- Frame-level embedding (`LSBLayer._embed_stream_chunk`, lines 29-57).

/-- Pairwise embedding from position 0: writes `setLow` over the zipped
prefix, passes the rest of the frame through, and ignores bits beyond
the frame end (the source truncates `data_chunk` to the room left). -/
def embedFrom : List Nat → List Bool → List Nat
  | [], _ => []
  | f, [] => f
  | v :: f, b :: c => setLow v b :: embedFrom f c

/-- `LSBLayer._embed_stream_chunk(frame, data_chunk, start_offset)`:
for `i < chunk_len` set `flat[start_offset+i] = (flat[start_offset+i]
& 0xFE) | int(data_chunk[i])`, where `chunk_len` is truncated to the
room left in the frame; all other samples are untouched. -/
def embed_stream_chunk (f : List Nat) (chunk : List Bool) (start : Nat) :
    List Nat :=
  f.take start ++ embedFrom (f.drop start) chunk

/-- The `chunk_len` the source computes at lines 36-43: the number of
bits actually written. -/
def chunkWritten (f : List Nat) (chunk : List Bool) (start : Nat) : Nat :=
  if f.length < start + chunk.length then f.length - start else chunk.length

-- The covert layer (`src/layers/LSBLayer.py`).  A video is modelled as
-- the list of its frames in order, each frame as its flattened list of
-- 8-bit samples; cv2 yields 3-channel frames, so a frame's flattened
-- length equals width * height * 3.

namespace LSBLayer

/-- Start offset used for a frame in `write`'s loop (lines 100-106):
frame 0 starts after the 32-bit header, later frames at 0. -/
def frameStart (idx : Nat) : Nat := if idx = 0 then 32 else 0

/-- `bits_to_write = min(bits_available, bits_needed)` at lines 109-111
(truncated subtraction plays the role of Python's negative values:
both make the `bits_to_write > 0` guard fail). -/
def writeCount (data : List Bool) (f : List Nat) (written idx : Nat) : Nat :=
  min (f.length - frameStart idx) (data.length - written)

/-- Body of `write`'s per-frame processing when data remains
(lines 97-116): frame 0 first receives the 32-bit header
`format(total_bits, '032b')` at offset 0, then the next
`bits_to_write` payload bits are embedded at the frame's start
offset when that count is positive. -/
def writeFrame (data : List Bool) (f : List Nat) (written idx : Nat) :
    List Nat :=
  let f1 := if idx = 0 then embed_stream_chunk f (pyBinPad data.length 32) 0
            else f
  if 0 < writeCount data f written idx then
    embed_stream_chunk f1 ((data.drop written).take (writeCount data f written idx))
      (frameStart idx)
  else f1

/-- The frame loop of `write` (lines 91-123): every source frame is
emitted in order; frames are modified only while payload bits remain. -/
def writeGo (data : List Bool) : List (List Nat) → Nat → Nat → List (List Nat)
  | [], _, _ => []
  | f :: rest, written, idx =>
    if written < data.length then
      writeFrame data f written idx ::
        writeGo data rest (written + writeCount data f written idx) (idx + 1)
    else f :: writeGo data rest written (idx + 1)

/-- `LSBLayer.write` (lines 61-158) up to the losslessly stored frames:
decode the payload as UTF-8 (any exception becomes an EncodingError,
modelled by `.error ()`), convert to bits, fail with the capacity
EncodingError when `total_bits + 32 > width * height * 3 * total_frames`
BEFORE any frame is processed, otherwise emit the embedded frames.
The ffmpeg/FFV1 remux is lossless and out of scope. -/
def write (w h : Nat) (frames : List (List Nat)) (payload : List Nat) :
    Except Unit (List (List Nat)) :=
  match utf8Decode payload with
  | none => .error ()
  | some s =>
    if w * h * 3 * frames.length < (textToBinary s).length + 32 then .error ()
    else .ok (writeGo (textToBinary s) frames 0 0)

/-- The while loop of `read` (lines 198-214): collect low bits from
successive frames until the declared count is reached, stopping early
(with a silent `break`) when the source has no more frames. -/
def readLoop : List (List Nat) → Nat → List Bool
  | [], _ => []
  | f :: rest, needed =>
    if needed = 0 then []
    else
      (f.take (min f.length needed)).map lowBit ++
        readLoop rest (needed - min f.length needed)

/-- The 32-bit length header `read` extracts from frame 0
(lines 172-177): `int(''.join(str(flat[i] & 1) for i in range(32)), 2)`. -/
def decodedHeader (f0 : List Nat) : Nat := bitsToNat ((f0.take 32).map lowBit)

/-- `LSBLayer.read` (lines 161-226): empty source gives `none`; a frame 0
with fewer than 32 samples raises (numpy IndexError caught into
DecodingError, modelled `.error ()`); a header failing the sanity check
`0 < L ≤ max_frames * shape[0] * shape[1] * 3` gives `none` (for the
3-channel frames cv2 produces, `shape[0] * shape[1] * 3` is the
flattened length); otherwise `min(L, len(flat) - 32)` bits come from
frame 0 after the header and the rest from the following frames, and
the collected bits run through `_binary_to_text` and UTF-8 encoding. -/
def read (frames : List (List Nat)) (maxFrames : Nat) :
    Except Unit (Option (List Nat)) :=
  match frames with
  | [] => .ok none
  | f0 :: rest =>
    if f0.length < 32 then .error ()
    else if decodedHeader f0 = 0 ∨ maxFrames * f0.length < decodedHeader f0 then
      .ok none
    else
      .ok (some (utf8Encode (binaryToText (
        ((f0.drop 32).take (min (decodedHeader f0) (f0.length - 32))).map lowBit ++
          readLoop rest (decodedHeader f0 -
            min (decodedHeader f0) (f0.length - 32))))))

end LSBLayer

-- The pipeline models (`src/src/MPXVerifier.py`, `src/MP5Decoder.py`,
-- `src/layers/AtomLayer.py`).

/-- A decoded JSON document; the verifier only ever tests Python
truthiness (non-emptiness) of these, so entries are kept abstract. -/
abbrev MetaDoc := List (String × String)

/-- Result of `MPXDecoder.decode` / `MP5Decoder.decode` as far as the
verifier consumes it: the `ai_metadata` key (covert layer document, set
only when `LSBLayer.read` returned truthy bytes and `decompress_json`
succeeded) and the `file_info` key (container layer document). -/
structure MPXDecodeResult where
  ai_metadata : Option MetaDoc
  file_info : Option MetaDoc
deriving DecidableEq

/-- Python truthiness of `data.get(key)`: the key is present and its
value is a non-empty dict. -/
def truthy (o : Option MetaDoc) : Bool :=
  match o with
  | none => false
  | some d => !d.isEmpty

/-- Classification result of `MPXVerifier.verify` (lines 15-49). -/
structure VerifyResult where
  lsb_status : String
  atom_status : String
  overall : String
deriving DecidableEq

/-- `MPXVerifier.verify` (lines 26-42) after `decoder.decode` returned
`data` (the decoder catches its own layer exceptions, so the `except`
branch of `verify` is not reachable through it): `overall` is
"verified" exactly when `data.get("ai_metadata")` is truthy and
"partial" otherwise; the atom layer's presence only sets its status
flag.  No checksum is recomputed or compared anywhere. -/
def MPXverify (data : MPXDecodeResult) : VerifyResult :=
  { lsb_status := if truthy data.ai_metadata then "present" else "absent"
    overall := if truthy data.ai_metadata then "verified" else "partial"
    atom_status := if truthy data.file_info then "present" else "absent" }

/-- `MP5Decoder.decode` (`src/MP5Decoder.py` lines 19-51, identical
control flow to `MPXDecoder.decode`), as a function of the layer
outcomes: `lsbRead` is `LSBLayer.read`'s outcome (`.error` for a raised
DecodingError), `atomHas` is `AtomLayer.has_metadata`, `atomRead` is
`AtomLayer.read`'s outcome, and `decompress` is the external
`CompressionUtils.decompress_json` (`none` models any exception).  Every
layer failure is caught and logged; nothing is raised. -/
def MP5decode (decompress : List Nat → Option MetaDoc)
    (lsbRead : Except Unit (Option (List Nat))) (atomHas : Bool)
    (atomRead : Except Unit (Option (List Nat))) : MPXDecodeResult :=
  let ai : Option MetaDoc :=
    match lsbRead with
    | .error _ => none
    | .ok none => none
    | .ok (some bs) => if bs.isEmpty then none else decompress bs
  let fi : Option MetaDoc :=
    if atomHas then
      match atomRead with
      | .error _ => none
      | .ok none => none
      | .ok (some bs) => decompress bs
    else none
  ⟨ai, fi⟩

/-- An MP4 container as mutagen's `MP4` object exposes it to
`AtomLayer`: the set of metadata tag keys present. -/
structure MP4File where
  tags : List String
deriving DecidableEq

/-- `AtomLayer.has_metadata` (lines 51-57): `openResult` is the outcome
of `MP4(video_path)` (`none` models any raised exception: missing file,
unparsable container); the `except` branch returns `False`. -/
def has_metadata (openResult : Option MP4File) (tag : String) : Bool :=
  match openResult with
  | none => false
  | some v => v.tags.contains tag

/-- The concrete frame behind the C4 counterexample: 48 samples whose
low bits declare a 100-bit payload (the header) followed by the 16 bits
of "AB". -/
def c4frame0 : List Nat :=
  List.replicate 25 0 ++ [1, 1, 0, 0, 1, 0, 0] ++
    [0, 1, 0, 0, 0, 0, 0, 1, 0, 1, 0, 0, 0, 0, 1, 0]

/-- The frames `write` emits for the C2 counterexample: the 42-sample
zero frame carrying the 32-bit header for 8 (the code's bit count for
the 2-byte payload b'\xc2\x88', one decoded character) and the 8 bits
of code point 136. -/
def c2out : List (List Nat) :=
  [List.replicate 28 0 ++ [1, 0, 0, 0] ++ [1, 0, 0, 0, 1, 0, 0, 0] ++ [0, 0]]

-- Basic facts about the bit primitives.

set_option maxRecDepth 4096 in
theorem setLow_mod_div :
    ∀ v < 256, ∀ b, setLow v b % 2 = bitVal b ∧ setLow v b / 2 = v / 2 ∧
      setLow v b < 256 := by decide

theorem lowBit_setLow (v : Nat) (hv : v < 256) (b : Bool) :
    lowBit (setLow v b) = b := by
  have h := (setLow_mod_div v hv b).1
  cases b <;> simp [lowBit, h, bitVal]

theorem bitsToNat_cons (b : Bool) (l : List Bool) :
    bitsToNat (b :: l) = l.foldl (fun a x => 2 * a + bitVal x) (bitVal b) := by
  simp [bitsToNat]

theorem bitsToNat_go (l : List Bool) :
    ∀ a : Nat, l.foldl (fun x b => 2 * x + bitVal b) a =
      a * 2 ^ l.length + bitsToNat l := by
  induction l with
  | nil => intro a; simp [bitsToNat]
  | cons b t ih =>
    intro a
    have h1 := ih (2 * a + bitVal b)
    have h2 := ih (2 * 0 + bitVal b)
    simp only [List.foldl_cons, List.length_cons, bitsToNat] at *
    rw [h1, h2]
    ring

theorem bitsToNat_append (a b : List Bool) :
    bitsToNat (a ++ b) = bitsToNat a * 2 ^ b.length + bitsToNat b := by
  simp only [bitsToNat, List.foldl_append]
  rw [bitsToNat_go b]
  rfl

theorem bitsToNat_replicate_false_append (k : Nat) (l : List Bool) :
    bitsToNat (List.replicate k false ++ l) = bitsToNat l := by
  rw [bitsToNat_append]
  have : bitsToNat (List.replicate k false) = 0 := by
    induction k with
    | zero => simp [bitsToNat]
    | succ n ih =>
      rw [List.replicate_succ, bitsToNat_cons, bitsToNat_go]
      simp [bitVal, bitsToNat] at ih ⊢
      exact ih
  rw [this]; simp

theorem bitsToNat_concat (l : List Bool) (b : Bool) :
    bitsToNat (l ++ [b]) = 2 * bitsToNat l + bitVal b := by
  rw [bitsToNat_append]
  simp [bitsToNat]
  ring

theorem bitsLEGo_inv :
    ∀ fuel n, n ≤ fuel → bitsToNat (bitsLEGo fuel n).reverse = n := by
  intro fuel
  induction fuel with
  | zero =>
    intro n hn
    interval_cases n
    simp [bitsLEGo, bitsToNat]
  | succ f ih =>
    intro n hn
    match n with
    | 0 => simp [bitsLEGo, bitsToNat]
    | m + 1 =>
      have hrec : (m + 1) / 2 ≤ f := by omega
      rw [bitsLEGo]
      simp only [List.reverse_cons]
      rw [bitsToNat_concat, ih _ hrec]
      have hb : bitVal (decide ((m + 1) % 2 = 1)) = (m + 1) % 2 := by
        rcases Nat.mod_two_eq_zero_or_one (m + 1) with h | h <;> simp [h, bitVal]
      rw [hb]; omega

theorem bitsLEGo_length :
    ∀ fuel n w, n ≤ fuel → n < 2 ^ w → (bitsLEGo fuel n).length ≤ w := by
  intro fuel
  induction fuel with
  | zero =>
    intro n w hn _
    interval_cases n
    simp [bitsLEGo]
  | succ f ih =>
    intro n w hn hw
    match n with
    | 0 => simp [bitsLEGo]
    | m + 1 =>
      match w with
      | 0 => simp at hw
      | w' + 1 =>
        have h1 : (m + 1) / 2 ≤ f := by omega
        have h2 : (m + 1) / 2 < 2 ^ w' := by
          have : 2 ^ (w' + 1) = 2 * 2 ^ w' := by ring
          omega
        rw [bitsLEGo]
        simp only [List.length_cons]
        have := ih ((m + 1) / 2) w' h1 h2
        omega

theorem pyBin_inv (n : Nat) : bitsToNat (pyBin n) = n :=
  bitsLEGo_inv n n (Nat.le_refl n)

theorem pyBinPad_inv (n w : Nat) : bitsToNat (pyBinPad n w) = n := by
  rw [pyBinPad, bitsToNat_replicate_false_append, pyBin_inv]

theorem pyBinPad_length (n w : Nat) (h : n < 2 ^ w) :
    (pyBinPad n w).length = w := by
  have hl : (pyBin n).length ≤ w := by
    rw [pyBin, List.length_reverse]
    exact bitsLEGo_length n n w (Nat.le_refl n) h
  simp [pyBinPad]
  omega


theorem embedFrom_length : ∀ (f : List Nat) (c : List Bool),
    (embedFrom f c).length = f.length := by
  intro f
  induction f with
  | nil => intro c; cases c <;> simp [embedFrom]
  | cons v t ih =>
    intro c
    cases c with
    | nil => simp [embedFrom]
    | cons b c' => simp [embedFrom, ih]

theorem embedFrom_nil (f : List Nat) : embedFrom f [] = f := by
  cases f <;> simp [embedFrom]

theorem embedFrom_take : ∀ (f : List Nat) (c : List Bool) (k : Nat),
    (embedFrom f c).take k = embedFrom (f.take k) (c.take k) := by
  intro f
  induction f with
  | nil => intro c k; cases c <;> simp [embedFrom]
  | cons v t ih =>
    intro c k
    cases c with
    | nil => simp [embedFrom_nil, embedFrom]
    | cons b c' =>
      cases k with
      | zero => simp [embedFrom]
      | succ k' => simp [embedFrom, ih]

theorem embedFrom_drop : ∀ (f : List Nat) (c : List Bool) (k : Nat),
    (embedFrom f c).drop k = embedFrom (f.drop k) (c.drop k) := by
  intro f
  induction f with
  | nil => intro c k; cases c <;> simp [embedFrom]
  | cons v t ih =>
    intro c k
    cases c with
    | nil => simp [embedFrom_nil, embedFrom]
    | cons b c' =>
      cases k with
      | zero => simp [embedFrom]
      | succ k' => simp [embedFrom, ih]

theorem embedFrom_map_lowBit : ∀ (f : List Nat) (c : List Bool),
    c.length = f.length → (∀ v ∈ f, v < 256) →
    (embedFrom f c).map lowBit = c := by
  intro f
  induction f with
  | nil =>
    intro c hc _
    simp at hc
    simp [hc, embedFrom]
  | cons v t ih =>
    intro c hc hv
    cases c with
    | nil => simp at hc
    | cons b c' =>
      simp only [List.length_cons] at hc
      have hv0 : v < 256 := hv v (List.mem_cons_self v t)
      have hvt : ∀ x ∈ t, x < 256 := fun x hx => hv x (List.mem_cons_of_mem v hx)
      simp [embedFrom, lowBit_setLow v hv0 b, ih c' (by omega) hvt]

theorem embedFrom_getElemQ : ∀ (f : List Nat) (c : List Bool) (i : Nat),
    (embedFrom f c)[i]? =
      match getElem? f i, getElem? c i with
      | some v, some b => some (setLow v b)
      | some v, none => some v
      | none, _ => none := by
  intro f
  induction f with
  | nil => intro c i; cases c <;> simp [embedFrom]
  | cons v t ih =>
    intro c i
    cases c with
    | nil =>
      simp only [embedFrom_nil]
      cases h : getElem? (v :: t) i <;> simp [h]
    | cons b c' =>
      cases i with
      | zero => simp [embedFrom]
      | succ i' => simpa [embedFrom] using ih c' i'

-- Codec round trips used by the write/read correctness proofs.

theorem textToBinary_length (s : List Nat) (hs : ∀ c ∈ s, c < 256) :
    (textToBinary s).length = 8 * s.length := by
  induction s with
  | nil => simp [textToBinary]
  | cons c t ih =>
    have hc : c < 2 ^ 8 := by
      have := hs c (List.mem_cons_self c t)
      omega
    have ht : ∀ x ∈ t, x < 256 := fun x hx => hs x (List.mem_cons_of_mem c hx)
    simp only [textToBinary, List.map_cons, List.flatten_cons,
      List.length_append, pyBinPad_length c 8 hc]
    rw [← textToBinary, ih ht]
    simp only [List.length_cons]
    ring

theorem binaryToText_append8 (l r : List Bool) (h : l.length = 8) :
    binaryToText (l ++ r) = bitsToNat l :: binaryToText r := by
  rcases l with _ | ⟨b1, _ | ⟨b2, _ | ⟨b3, _ | ⟨b4, _ | ⟨b5, _ | ⟨b6, _ |
    ⟨b7, _ | ⟨b8, t⟩⟩⟩⟩⟩⟩⟩⟩ <;> simp at h
  cases t with
  | nil => simp [binaryToText]
  | cons x xs => simp at h

theorem binaryToText_textToBinary (s : List Nat) (hs : ∀ c ∈ s, c < 256) :
    binaryToText (textToBinary s) = s := by
  induction s with
  | nil => simp [textToBinary, binaryToText]
  | cons c t ih =>
    have hc : c < 2 ^ 8 := by
      have := hs c (List.mem_cons_self c t)
      omega
    have ht : ∀ x ∈ t, x < 256 := fun x hx => hs x (List.mem_cons_of_mem c hx)
    simp only [textToBinary, List.map_cons, List.flatten_cons]
    rw [← textToBinary, binaryToText_append8 _ _ (pyBinPad_length c 8 hc),
      pyBinPad_inv, ih ht]

theorem utf8Step_ascii (c : Nat) (h : c < 128) (rest : List Nat) :
    utf8Step c rest = some (c, rest) := by
  simp [utf8Step, h]

theorem utf8Step_twoByte (c : Nat) (h1 : 128 ≤ c) (h2 : c < 256)
    (rest : List Nat) :
    utf8Step (192 + c / 64) ((128 + c % 64) :: rest) = some (c, rest) := by
  have a1 : ¬ 192 + c / 64 < 128 := by omega
  have a2 : ¬ 192 + c / 64 < 194 := by omega
  have a3 : 192 + c / 64 < 224 := by omega
  have a4 : 128 ≤ 128 + c % 64 ∧ 128 + c % 64 < 192 := by omega
  have a5 : (192 + c / 64 - 192) * 64 + (128 + c % 64 - 128) = c := by omega
  simp [utf8Step, a1, a2, a3, a4, a5]
  omega

theorem utf8DecodeGo_nil (fuel : Nat) : utf8DecodeGo fuel [] = some [] := by
  cases fuel <;> rfl

theorem utf8DecodeGo_encode (s : List Nat) (hs : ∀ c ∈ s, c < 256) :
    ∀ fuel, (utf8Encode s).length ≤ fuel →
      utf8DecodeGo fuel (utf8Encode s) = some s := by
  induction s with
  | nil =>
    intro fuel _
    simp only [utf8Encode, List.map_nil, List.flatten_nil]
    exact utf8DecodeGo_nil fuel
  | cons c t ih =>
    intro fuel hfuel
    have hc : c < 256 := hs c (List.mem_cons_self c t)
    have ht : ∀ x ∈ t, x < 256 := fun x hx => hs x (List.mem_cons_of_mem c hx)
    have hsplit : utf8Encode (c :: t) = utf8EncodeChar c ++ utf8Encode t := by
      simp [utf8Encode]
    rw [hsplit] at hfuel ⊢
    by_cases h1 : c < 128
    · have he : utf8EncodeChar c = [c] := by simp [utf8EncodeChar, h1]
      rw [he] at hfuel ⊢
      simp only [List.length_append, List.length_cons, List.length_nil] at hfuel
      cases fuel with
      | zero => omega
      | succ f =>
        rw [List.cons_append, List.nil_append, utf8DecodeGo,
          utf8Step_ascii c h1]
        simp only [ih ht f (by omega)]
        rfl
    · have he : utf8EncodeChar c = [192 + c / 64, 128 + c % 64] := by
        have : c < 2048 := by omega
        simp [utf8EncodeChar, h1, this]
      rw [he] at hfuel ⊢
      simp only [List.length_append, List.length_cons, List.length_nil] at hfuel
      cases fuel with
      | zero => omega
      | succ f =>
        rw [List.cons_append, List.cons_append, List.nil_append, utf8DecodeGo,
          utf8Step_twoByte c (by omega) hc]
        simp only [ih ht f (by omega)]
        rfl

theorem utf8Decode_encode_latin1 (s : List Nat) (hs : ∀ c ∈ s, c < 256) :
    utf8Decode (utf8Encode s) = some s :=
  utf8DecodeGo_encode s hs _ (Nat.le_refl _)


-- Helper facts about `binaryToText`.

theorem binaryToText_short (l : List Bool) (h : l.length < 8) :
    binaryToText l = [] := by
  rcases l with _ | ⟨b1, _ | ⟨b2, _ | ⟨b3, _ | ⟨b4, _ | ⟨b5, _ | ⟨b6, _ |
    ⟨b7, _ | ⟨b8, rest⟩⟩⟩⟩⟩⟩⟩⟩ <;> first
  | rfl
  | (simp at h; omega)

theorem eightDecomp (l : List Bool) (h : 8 ≤ l.length) :
    ∃ b1 b2 b3 b4 b5 b6 b7 b8 rest,
      l = b1 :: b2 :: b3 :: b4 :: b5 :: b6 :: b7 :: b8 :: rest := by
  rcases l with _ | ⟨b1, _ | ⟨b2, _ | ⟨b3, _ | ⟨b4, _ | ⟨b5, _ | ⟨b6, _ |
    ⟨b7, _ | ⟨b8, rest⟩⟩⟩⟩⟩⟩⟩⟩ <;> first
  | exact ⟨b1, b2, b3, b4, b5, b6, b7, b8, rest, rfl⟩
  | simp at h

theorem binaryToText_length_go :
    ∀ (n : Nat) (l : List Bool), l.length ≤ n →
      (binaryToText l).length = l.length / 8 := by
  intro n
  induction n with
  | zero =>
    intro l hl
    have : l = [] := List.eq_nil_of_length_eq_zero (by omega)
    subst this
    rfl
  | succ n ih =>
    intro l hl
    by_cases h8 : l.length < 8
    · rw [binaryToText_short l h8]
      simp
      omega
    · obtain ⟨b1, b2, b3, b4, b5, b6, b7, b8, rest, rfl⟩ :=
        eightDecomp l (by omega)
      simp only [List.length_cons] at hl ⊢
      rw [binaryToText]
      simp only [List.length_cons]
      rw [ih rest (by omega)]
      omega

theorem binaryToText_length (l : List Bool) :
    (binaryToText l).length = l.length / 8 :=
  binaryToText_length_go l.length l (Nat.le_refl _)

theorem binaryToText_drop_partial_go :
    ∀ (n : Nat) (l extra : List Bool), l.length ≤ n → l.length % 8 = 0 →
      extra.length < 8 → binaryToText (l ++ extra) = binaryToText l := by
  intro n
  induction n with
  | zero =>
    intro l extra hl _ hx
    have : l = [] := List.eq_nil_of_length_eq_zero (by omega)
    subst this
    simpa using binaryToText_short extra hx
  | succ n ih =>
    intro l extra hl hm hx
    by_cases h0 : l.length = 0
    · have : l = [] := List.eq_nil_of_length_eq_zero h0
      subst this
      simpa using binaryToText_short extra hx
    · obtain ⟨b1, b2, b3, b4, b5, b6, b7, b8, rest, rfl⟩ :=
        eightDecomp l (by omega)
      simp only [List.length_cons] at hl hm h0
      simp only [List.cons_append]
      rw [binaryToText, binaryToText, ih rest extra (by omega) (by omega) hx]

/-- Claim C8 is false on the code: `_binary_to_text` applied to a 9-bit
string (length not a multiple of 8) does not fail; it silently drops the
ninth bit and returns the one complete group. -/
theorem claim_c8_counterexample :
    binaryToText [false, true, false, false, false, false, false, true, true] =
      [65] ∧
    (9 : Nat) % 8 ≠ 0 := ⟨rfl, by decide⟩

/-- Claim C8 (amended): when the bit string's length is not a multiple
of 8, `_binary_to_text` does not fail: the trailing partial 8-bit group
is silently dropped (never zero-padded), the complete groups are decoded
unchanged, and the output always has exactly `length / 8` characters. -/
theorem claim_c8_amended (l extra : List Bool) (hl : l.length % 8 = 0)
    (hx : extra.length < 8) :
    binaryToText (l ++ extra) = binaryToText l ∧
    (binaryToText (l ++ extra)).length = l.length / 8 := by
  have h := binaryToText_drop_partial_go l.length l extra (Nat.le_refl _) hl hx
  refine ⟨h, ?_⟩
  rw [h, binaryToText_length]

/-- Witness for claim C8 (amended) at a concrete 8+1 bit input. -/
theorem claim_c8_amended_witness :
    binaryToText
        ([false, true, false, false, false, false, true, false] ++ [true]) =
      binaryToText [false, true, false, false, false, false, true, false] ∧
    (binaryToText
        ([false, true, false, false, false, false, true, false] ++ [true])).length =
      8 / 8 :=
  claim_c8_amended [false, true, false, false, false, false, true, false]
    [true] (by decide) (by decide)

/-- Claim C2 is false on the code as stated: the code's capacity check
counts `total_bits` = 8 x the number of UTF-8-decoded characters, not
the payload's bit length 8 x byte count.  The 2-byte payload
b'\xc2\x88' (16 bits) on a one-frame 7x2 video of 42 samples has
16 + 32 > 42, yet `write` embeds and emits the frame (the code counts
only 8 bits); and the invalid-UTF-8 payload b'\xff\xff' of exactly
`totalCapacity - 32` = 16 bits on a 48-sample video does not succeed —
it fails at the decode step. -/
theorem claim_c2_counterexample :
    LSBLayer.write 7 2 [List.replicate 42 0] [194, 136] = .ok c2out ∧
    7 * 2 * 3 * 1 < 8 * 2 + 32 ∧
    LSBLayer.write 4 4 [List.replicate 48 0] [255, 255] = .error () ∧
    8 * 2 + 32 = 4 * 4 * 3 * 1 :=
  ⟨rfl, by decide, rfl, by decide⟩

/-- Claim C2 (amended): with `L` the bit count the code actually embeds
— 8 x the number of characters of the payload's UTF-8 decoding, equal
to 8 x byte count only for ASCII; stated here for payloads decoding to
code points at most 255 — `write` fails with the capacity EncodingError
before any frame is emitted (the `.error` result carries no frames)
whenever `L + 32 > width * height * 3 * frameCount`, succeeds when `L`
is exactly `totalCapacity - 32`, and a payload that is not valid UTF-8
fails with EncodingError at the decode step regardless of its length. -/
theorem claim_c2_capacity (w h : Nat) (frames : List (List Nat))
    (s p : List Nat) (hchar : ∀ c ∈ s, c < 256)
    (hbad : utf8Decode p = none) :
    (w * h * 3 * frames.length < (textToBinary s).length + 32 →
      LSBLayer.write w h frames (utf8Encode s) = .error ()) ∧
    ((textToBinary s).length + 32 = w * h * 3 * frames.length →
      ∃ out, LSBLayer.write w h frames (utf8Encode s) = .ok out) ∧
    LSBLayer.write w h frames p = .error () := by
  refine ⟨?_, ?_, ?_⟩
  · intro hcap
    simp only [LSBLayer.write, utf8Decode_encode_latin1 s hchar]
    rw [if_pos hcap]
  · intro heq
    simp only [LSBLayer.write, utf8Decode_encode_latin1 s hchar]
    rw [if_neg (by omega)]
    exact ⟨_, rfl⟩
  · simp [LSBLayer.write, hbad]

/-- Witness for claim C2 (amended): a 10-frame 2x2 video (capacity 120
bits); a 12-character payload (96 bits, 96 + 32 > 120) is rejected, an
11-character payload (88 bits, 88 + 32 = 120) is accepted, and the
invalid-UTF-8 payload b'\xff' errors. -/
theorem claim_c2_capacity_witness :
    LSBLayer.write 2 2 (List.replicate 10 (List.replicate 12 0))
      (utf8Encode (List.replicate 12 65)) = .error () ∧
    (∃ out, LSBLayer.write 2 2 (List.replicate 10 (List.replicate 12 0))
      (utf8Encode (List.replicate 11 65)) = .ok out) ∧
    LSBLayer.write 2 2 (List.replicate 10 (List.replicate 12 0)) [255] =
      .error () := by
  refine ⟨?_, ?_, ?_⟩
  · exact (claim_c2_capacity 2 2 (List.replicate 10 (List.replicate 12 0))
      (List.replicate 12 65) [255] (by decide) (by decide)).1 (by decide)
  · exact (claim_c2_capacity 2 2 (List.replicate 10 (List.replicate 12 0))
      (List.replicate 11 65) [255] (by decide) (by decide)).2.1 (by decide)
  · exact (claim_c2_capacity 2 2 (List.replicate 10 (List.replicate 12 0))
      [] [255] (by decide) (by decide)).2.2

/-- Claim C3 is false on the code: when both layers are absent the
verifier classifies "partial", not "invalid" (the decode result has a
falsy `ai_metadata` and a falsy `file_info`, yet `overall` is set in
the covert-layer branch alone). -/
theorem claim_c3_counterexample :
    (MPXverify ⟨none, none⟩).overall = "partial" ∧
    (MPXverify ⟨none, none⟩).overall ≠ "invalid" ∧
    truthy (MPXDecodeResult.mk none none).ai_metadata = false ∧
    truthy (MPXDecodeResult.mk none none).file_info = false :=
  ⟨rfl, by decide, rfl, rfl⟩

/-- Claim C3 (amended): `MPXVerifier.verify` classifies from layer
presence alone, with no checksum comparison: "verified" exactly when the
covert document is present (and truthy), "partial" otherwise; the
container layer's presence only sets its own status flag and never
changes `overall`; "tampered" and "invalid" are never produced. -/
theorem claim_c3_amended (d : MPXDecodeResult) (x : Option MetaDoc) :
    (truthy d.ai_metadata = true →
      (MPXverify d).overall = "verified" ∧
        (MPXverify d).lsb_status = "present") ∧
    (truthy d.ai_metadata = false →
      (MPXverify d).overall = "partial" ∧
        (MPXverify d).lsb_status = "absent") ∧
    (MPXverify { d with file_info := x }).overall = (MPXverify d).overall ∧
    (MPXverify d).overall ≠ "tampered" ∧
    (MPXverify d).overall ≠ "invalid" := by
  refine ⟨fun hd => ?_, fun hd => ?_, ?_, ?_, ?_⟩
  · constructor <;> simp [MPXverify, hd]
  · constructor <;> simp [MPXverify, hd]
  · simp [MPXverify]
  · cases hd : truthy d.ai_metadata <;> simp [MPXverify, hd]
  · cases hd : truthy d.ai_metadata <;> simp [MPXverify, hd]

/-- Witness for claim C3 (amended) on a concrete present-covert decode
result. -/
theorem claim_c3_amended_witness :
    (MPXverify ⟨some [("k", "v")], none⟩).overall = "verified" ∧
    (MPXverify { MPXDecodeResult.mk (some [("k", "v")]) none with
        file_info := some [("a", "b")] }).overall =
      (MPXverify ⟨some [("k", "v")], none⟩).overall := by
  have h := claim_c3_amended ⟨some [("k", "v")], none⟩ (some [("a", "b")])
  exact ⟨(h.1 (by decide)).1, h.2.2.1⟩

/-- Claim C9 is false on the code: with the container (atom) tag absent,
`MP5Decoder.decode` does not raise DecodingError; it completes normally
and returns a result with no public document (the decode model is a
total function). -/
theorem claim_c9_counterexample :
    MP5decode (fun bs => if bs = [1] then some [("k", "v")] else none)
      (.ok none) false (.ok (some [1])) = ⟨none, none⟩ := rfl

/-- Claim C9 (amended): when the container tag is absent,
`MP5Decoder.decode` returns normally with no `file_info` (absence is
logged, not raised); when the tag is present and the atom bytes read and
decompress successfully, the resulting public document is exposed as
`file_info`. -/
theorem claim_c9_amended (decompress : List Nat → Option MetaDoc)
    (lsbRead atomRead : Except Unit (Option (List Nat)))
    (bs : List Nat) (doc : MetaDoc) :
    (MP5decode decompress lsbRead false atomRead).file_info = none ∧
    (atomRead = .ok (some bs) → decompress bs = some doc →
      (MP5decode decompress lsbRead true atomRead).file_info = some doc) := by
  constructor
  · simp [MP5decode]
  · intro h1 h2
    simp [MP5decode, h1, h2]

/-- Witness for claim C9 (amended) at concrete layer outcomes. -/
theorem claim_c9_amended_witness :
    (MP5decode (fun bs => if bs = [2] then some [("a", "b")] else none)
      (.ok none) false (.ok (some [2]))).file_info = none ∧
    (MP5decode (fun bs => if bs = [2] then some [("a", "b")] else none)
      (.ok none) true (.ok (some [2]))).file_info = some [("a", "b")] := by
  have h := claim_c9_amended
    (fun bs => if bs = [2] then some [("a", "b")] else none)
    (.ok none) (.ok (some [2])) [2] [("a", "b")]
  exact ⟨h.1, h.2 rfl (by decide)⟩

/-- Claim C10: `AtomLayer.has_metadata` is a total Boolean function of
the container-open outcome: any failure to open or parse the container
(the `none` outcome of `MP4(video_path)`) yields `False` rather than an
error, and on success it reports exactly whether the reserved tag is
among the container's keys. -/
theorem claim_c10_total (o : Option MP4File) (tag : String) :
    (o = none → has_metadata o tag = false) ∧
    (∀ v, o = some v → has_metadata o tag = v.tags.contains tag) := by
  constructor
  · intro h
    subst h
    rfl
  · intro v h
    subst h
    rfl

/-- Witness for claim C10 at a failed open and at a container holding
the tag. -/
theorem claim_c10_total_witness :
    has_metadata none "tag1" = false ∧
    has_metadata (some ⟨["tag1", "x"]⟩) "tag1" = true := by
  have h1 := (claim_c10_total none "tag1").1 rfl
  have h2 := (claim_c10_total (some ⟨["tag1", "x"]⟩) "tag1").2
    ⟨["tag1", "x"]⟩ rfl
  rw [h2] at *
  exact ⟨h1, by decide⟩

/-- Claim C5: `_embed_stream_chunk` writes exactly one payload bit per
sample — the written count is `min(len(bits), frameLen - start)`, i.e.
truncated to the frame boundary exactly when `start + len(bits)` exceeds
it — and for written positions the sample's low bit becomes the payload
bit while the other seven bits (`sample / 2`) are untouched; every other
sample of the frame is completely unchanged, and the frame keeps its
length (and so its shape). -/
theorem claim_c5_embed (f : List Nat) (c : List Bool) (start : Nat)
    (hs : start ≤ f.length) (hv : ∀ v ∈ f, v < 256) :
    (embed_stream_chunk f c start).length = f.length ∧
    chunkWritten f c start = min c.length (f.length - start) ∧
    (∀ i, i < start ∨ start + min c.length (f.length - start) ≤ i →
      (embed_stream_chunk f c start)[i]? = f[i]?) ∧
    (∀ i, start ≤ i → i < start + min c.length (f.length - start) →
      ((getElem? (embed_stream_chunk f c start) i).getD 0) % 2 =
        bitVal ((getElem? c (i - start)).getD false) ∧
      ((getElem? (embed_stream_chunk f c start) i).getD 0) / 2 =
        ((getElem? f i).getD 0) / 2) := by
  have hlen : (embed_stream_chunk f c start).length = f.length := by
    simp [embed_stream_chunk, embedFrom_length]
    omega
  have htakelen : (f.take start).length = start := by
    simp
    omega
  refine ⟨hlen, ?_, ?_, ?_⟩
  · rw [chunkWritten]
    split <;> omega
  · intro i hi
    rcases hi with hi | hi
    · rw [embed_stream_chunk, List.getElem?_append, htakelen, if_pos (by omega),
        List.getElem?_take, if_pos (by omega)]
    · by_cases hif : i < f.length
      · rw [embed_stream_chunk, List.getElem?_append, htakelen,
          if_neg (by omega), embedFrom_getElemQ, List.getElem?_drop]
        have hcnone : getElem? c (i - start) = none :=
          List.getElem?_eq_none (by omega)
        have heq : start + (i - start) = i := by omega
        rw [hcnone, heq]
        cases hfv : getElem? f i <;> simp
      · rw [embed_stream_chunk, List.getElem?_append, htakelen,
          if_neg (by omega)]
        have h1 : (embedFrom (f.drop start) c).length ≤ i - start := by
          rw [embedFrom_length]
          simp
          omega
        rw [List.getElem?_eq_none h1, List.getElem?_eq_none (by omega)]
  · intro i hi1 hi2
    have hif : i < f.length := by omega
    have hic : i - start < c.length := by omega
    rw [embed_stream_chunk, List.getElem?_append, htakelen,
      if_neg (by omega), embedFrom_getElemQ, List.getElem?_drop]
    have heq : start + (i - start) = i := by omega
    rw [heq]
    rcases hfv : getElem? f i with _ | v
    · exact absurd (List.getElem?_eq_none_iff.mp hfv) (by omega)
    rcases hcv : getElem? c (i - start) with _ | b
    · exact absurd (List.getElem?_eq_none_iff.mp hcv) (by omega)
    have hv256 : v < 256 := hv v (List.getElem?_mem hfv)
    have hfacts := setLow_mod_div v hv256 b
    simp only [Option.getD_some]
    exact ⟨hfacts.1, hfacts.2.1⟩

/-- Witness for claim C5 on a concrete 6-sample frame, 3-bit chunk at
offset 2. -/
theorem claim_c5_embed_witness :
    (embed_stream_chunk [10, 20, 30, 40, 50, 60] [true, false, true] 2).length
      = 6 ∧
    chunkWritten [10, 20, 30, 40, 50, 60] [true, false, true] 2 = 3 ∧
    (embed_stream_chunk [10, 20, 30, 40, 50, 60] [true, false, true] 2)[1]? =
      some 20 ∧
    ((getElem? (embed_stream_chunk [10, 20, 30, 40, 50, 60]
      [true, false, true] 2) 2).getD 0) % 2 = 1 := by
  have h := claim_c5_embed [10, 20, 30, 40, 50, 60] [true, false, true] 2
    (by decide) (by decide)
  refine ⟨h.1, ?_, ?_, ?_⟩
  · rw [h.2.1]
    decide
  · exact h.2.2.1 1 (by decide)
  · have := (h.2.2.2 2 (by decide) (by decide)).1
    rw [this]
    rfl

-- Write/read correspondence helpers.

theorem embed_stream_chunk_length (f : List Nat) (c : List Bool) (s : Nat) :
    (embed_stream_chunk f c s).length = f.length := by
  simp [embed_stream_chunk, embedFrom_length]
  omega

theorem embed_stream_chunk_zero (f : List Nat) (c : List Bool) :
    embed_stream_chunk f c 0 = embedFrom f c := by
  simp [embed_stream_chunk]

namespace LSBLayer

theorem writeFrame_length (data : List Bool) (f : List Nat)
    (written idx : Nat) :
    (writeFrame data f written idx).length = f.length := by
  rw [writeFrame]
  split <;> cases idx <;>
    simp [embed_stream_chunk_length, frameStart]

theorem writeFrame_pos (data : List Bool) (f : List Nat) (written idx : Nat)
    (hidx : idx ≠ 0) :
    writeFrame data f written idx =
      (if 0 < writeCount data f written idx then
        embedFrom f ((data.drop written).take (writeCount data f written idx))
      else f) := by
  rw [writeFrame, if_neg hidx]
  have h0 : frameStart idx = 0 := by simp [frameStart, hidx]
  rw [h0, embed_stream_chunk_zero]

theorem writeCount_pos (data : List Bool) (f : List Nat) (written idx : Nat)
    (hidx : idx ≠ 0) :
    writeCount data f written idx = min f.length (data.length - written) := by
  rw [writeCount, frameStart, if_neg hidx]
  simp

/-- Reading the written tail frames back gives exactly the payload bits
still to be embedded: the inductive heart of the round trip. -/
theorem readLoop_writeGo (data : List Bool) (S : Nat) :
    ∀ (frames : List (List Nat)) (written idx : Nat), idx ≠ 0 →
      (∀ f ∈ frames, f.length = S) →
      (∀ f ∈ frames, ∀ v ∈ f, v < 256) →
      written ≤ data.length →
      data.length - written ≤ S * frames.length →
      readLoop (writeGo data frames written idx) (data.length - written) =
        data.drop written := by
  intro frames
  induction frames with
  | nil =>
    intro written idx _ _ _ hw hcap
    simp only [writeGo, readLoop]
    have : data.length ≤ written := by
      simp at hcap
      omega
    rw [List.drop_eq_nil_of_le this]
  | cons f rest ih =>
    intro written idx hidx hsz hvals hw hcap
    have hfS : f.length = S := hsz f (List.mem_cons_self f rest)
    have hszr : ∀ g ∈ rest, g.length = S :=
      fun g hg => hsz g (List.mem_cons_of_mem f hg)
    have hvalr : ∀ g ∈ rest, ∀ v ∈ g, v < 256 :=
      fun g hg => hvals g (List.mem_cons_of_mem f hg)
    have hvf : ∀ v ∈ f, v < 256 := hvals f (List.mem_cons_self f rest)
    by_cases hlt : written < data.length
    · have hS : 0 < S := by
        rcases Nat.eq_zero_or_pos S with h0 | h; · simp [h0] at hcap; omega
        exact h
      have hneed : 0 < data.length - written := by omega
      have hbtw : writeCount data f written idx =
          min S (data.length - written) := by
        rw [writeCount_pos data f written idx hidx, hfS]
      have hbtwpos : 0 < writeCount data f written idx := by
        rw [hbtw]; omega
      have hchunklen : ((data.drop written).take
          (writeCount data f written idx)).length =
          writeCount data f written idx := by
        rw [List.length_take_of_le]
        rw [List.length_drop]
        omega
      rw [writeGo, if_pos hlt,
        writeFrame_pos data f written idx hidx, if_pos hbtwpos]
      rw [readLoop, if_neg (by omega)]
      have hflen : (embedFrom f ((data.drop written).take
          (writeCount data f written idx))).length = S := by
        rw [embedFrom_length, hfS]
      have hminS : min (embedFrom f ((data.drop written).take
          (writeCount data f written idx))).length
          (data.length - written) = writeCount data f written idx := by
        rw [hflen, hbtw]
      rw [hminS]
      have htake : (embedFrom f ((data.drop written).take
            (writeCount data f written idx))).take
            (writeCount data f written idx) =
          embedFrom (f.take (writeCount data f written idx))
            ((data.drop written).take (writeCount data f written idx)) := by
        rw [embedFrom_take, List.take_take, min_self]
      rw [htake, embedFrom_map_lowBit _ _
        (by rw [hchunklen, List.length_take_of_le (by omega)])
        (fun v hv => hvf v (List.mem_of_mem_take hv))]
      have hmul : S * (rest.length + 1) = S * rest.length + S := by ring
      simp only [List.length_cons] at hcap
      rw [hmul] at hcap
      have harg : data.length - written - writeCount data f written idx =
          data.length - (written + writeCount data f written idx) := by omega
      rw [harg]
      rw [ih (written + writeCount data f written idx) (idx + 1)
        (by omega) hszr hvalr (by rw [hbtw]; omega) (by rw [hbtw]; omega)]
      have hdd : data.drop (written + writeCount data f written idx) =
          (data.drop written).drop (writeCount data f written idx) := by
        rw [List.drop_drop]
      rw [hdd, List.take_append_drop]
    · have hwe : data.length - written = 0 := by omega
      rw [writeGo, if_neg hlt, readLoop, hwe, if_pos rfl]
      rw [List.drop_eq_nil_of_le (by omega)]

end LSBLayer

namespace LSBLayer

theorem writeFrame_zero (data : List Bool) (f : List Nat) (written : Nat) :
    writeFrame data f written 0 =
      (if 0 < writeCount data f written 0 then
        embed_stream_chunk (embedFrom f (pyBinPad data.length 32))
          ((data.drop written).take (writeCount data f written 0)) 32
      else embedFrom f (pyBinPad data.length 32)) := by
  rw [writeFrame]
  simp [frameStart, embed_stream_chunk_zero]

theorem writeFrame0_take32 (data : List Bool) (f0 : List Nat) (written : Nat)
    (h32 : 32 ≤ f0.length)
    (hlen32 : (pyBinPad data.length 32).length = 32) :
    (writeFrame data f0 written 0).take 32 =
      embedFrom (f0.take 32) (pyBinPad data.length 32) := by
  have hf1len : (embedFrom f0 (pyBinPad data.length 32)).length = f0.length :=
    embedFrom_length f0 _
  have hcommon : (embedFrom f0 (pyBinPad data.length 32)).take 32 =
      embedFrom (f0.take 32) (pyBinPad data.length 32) := by
    rw [embedFrom_take, List.take_of_length_le
      (show (pyBinPad data.length 32).length ≤ 32 by omega)]
  rw [writeFrame_zero]
  split
  · rw [embed_stream_chunk,
      List.take_left' (List.length_take_of_le (by omega)), hcommon]
  · exact hcommon

theorem writeFrame0_drop32 (data : List Bool) (f0 : List Nat) (written : Nat)
    (h32 : 32 ≤ f0.length)
    (hlen32 : (pyBinPad data.length 32).length = 32) :
    (writeFrame data f0 written 0).drop 32 =
      embedFrom (f0.drop 32)
        ((data.drop written).take (writeCount data f0 written 0)) := by
  have hf1len : (embedFrom f0 (pyBinPad data.length 32)).length = f0.length :=
    embedFrom_length f0 _
  have hdrop : (embedFrom f0 (pyBinPad data.length 32)).drop 32 =
      f0.drop 32 := by
    rw [embedFrom_drop, List.drop_of_length_le
      (show (pyBinPad data.length 32).length ≤ 32 by omega), embedFrom_nil]
  rw [writeFrame_zero]
  split
  · rw [embed_stream_chunk,
      List.drop_left' (List.length_take_of_le (by omega)), hdrop]
  · rename_i hwc
    have h0 : writeCount data f0 written 0 = 0 := by omega
    rw [h0, hdrop]
    simp [embedFrom_nil]

theorem decodedHeader_writeFrame0 (data : List Bool) (f0 : List Nat)
    (written : Nat) (h32 : 32 ≤ f0.length) (hval : ∀ v ∈ f0, v < 256)
    (hlen32 : (pyBinPad data.length 32).length = 32) :
    decodedHeader (writeFrame data f0 written 0) = data.length := by
  rw [decodedHeader, writeFrame0_take32 data f0 written h32 hlen32,
    embedFrom_map_lowBit _ _
      (by rw [hlen32, List.length_take_of_le h32])
      (fun v hv => hval v (List.mem_of_mem_take hv)),
    pyBinPad_inv]

end LSBLayer

/-- Claim C1 (amended): the write/read round trip over the losslessly
stored frames returns the payload exactly, provided the payload is the
UTF-8 encoding of characters with code points at most 255 (so that
`_text_to_binary` emits exactly 8 bits per character), where
`L = 8 * charCount` is the embedded bit length, each frame holds at
least the 32-sample header, `L < 2 ^ 32`, and `L` does not exceed the
read-side sanity bound `1000 * frameCapacity`. -/
theorem claim_c1_roundtrip (w h : Nat) (frames : List (List Nat))
    (s : List Nat)
    (hsz : ∀ f ∈ frames, f.length = w * h * 3)
    (hvals : ∀ f ∈ frames, ∀ v ∈ f, v < 256)
    (h32 : 32 ≤ w * h * 3)
    (hchar : ∀ c ∈ s, c < 256)
    (hpos : 0 < s.length)
    (hcap : 8 * s.length + 32 ≤ w * h * 3 * frames.length)
    (hsan : 8 * s.length ≤ 1000 * (w * h * 3))
    (hhdr : 8 * s.length < 2 ^ 32) :
    ∃ out, LSBLayer.write w h frames (utf8Encode s) = .ok out ∧
      LSBLayer.read out 1000 = .ok (some (utf8Encode s)) := by
  have hbits : (textToBinary s).length = 8 * s.length :=
    textToBinary_length s hchar
  cases frames with
  | nil =>
    exfalso
    simp at hcap
  | cons f0 rest =>
    have hf0S : f0.length = w * h * 3 := hsz f0 (List.mem_cons_self f0 rest)
    have hv0 : ∀ v ∈ f0, v < 256 := hvals f0 (List.mem_cons_self f0 rest)
    have hszr : ∀ g ∈ rest, g.length = w * h * 3 :=
      fun g hg => hsz g (List.mem_cons_of_mem f0 hg)
    have hvr : ∀ g ∈ rest, ∀ v ∈ g, v < 256 :=
      fun g hg => hvals g (List.mem_cons_of_mem f0 hg)
    have hlen32 : (pyBinPad (textToBinary s).length 32).length = 32 := by
      rw [hbits]
      exact pyBinPad_length _ 32 hhdr
    have hdlen : 0 < (textToBinary s).length := by omega
    simp only [LSBLayer.write, utf8Decode_encode_latin1 s hchar]
    rw [if_neg (by omega)]
    refine ⟨_, rfl, ?_⟩
    rw [LSBLayer.writeGo, if_pos hdlen]
    have hmul : w * h * 3 * (f0 :: rest).length =
        w * h * 3 * rest.length + w * h * 3 := by
      simp [List.length_cons]
      ring
    have hF0len : (LSBLayer.writeFrame (textToBinary s) f0 0 0).length =
        w * h * 3 := by
      rw [LSBLayer.writeFrame_length, hf0S]
    have hhead : LSBLayer.decodedHeader
        (LSBLayer.writeFrame (textToBinary s) f0 0 0) =
        (textToBinary s).length :=
      LSBLayer.decodedHeader_writeFrame0 _ f0 0 (by omega) hv0 hlen32
    rw [LSBLayer.read, if_neg (by omega), hhead, hF0len, if_neg (by omega)]
    have hwc0 : LSBLayer.writeCount (textToBinary s) f0 0 0 =
        min (textToBinary s).length (w * h * 3 - 32) := by
      rw [LSBLayer.writeCount, LSBLayer.frameStart, if_pos rfl, hf0S]
      simp [Nat.min_comm]
    have hdrop32 : (LSBLayer.writeFrame (textToBinary s) f0 0 0).drop 32 =
        embedFrom (f0.drop 32)
          ((textToBinary s).take
            (min (textToBinary s).length (w * h * 3 - 32))) := by
      rw [LSBLayer.writeFrame0_drop32 _ f0 0 (by omega) hlen32, hwc0]
      simp
    rw [hdrop32]
    have hXlen : (f0.drop 32).length = w * h * 3 - 32 := by
      simp [hf0S]
    have htk : (embedFrom (f0.drop 32)
          ((textToBinary s).take
            (min (textToBinary s).length (w * h * 3 - 32)))).take
          (min (textToBinary s).length (w * h * 3 - 32)) =
        embedFrom
          ((f0.drop 32).take (min (textToBinary s).length (w * h * 3 - 32)))
          ((textToBinary s).take
            (min (textToBinary s).length (w * h * 3 - 32))) := by
      rw [embedFrom_take, List.take_take, min_self]
    rw [htk, embedFrom_map_lowBit _ _
      (by rw [List.length_take_of_le (by omega),
        List.length_take_of_le (by omega)])
      (fun v hv => hv0 v (List.mem_of_mem_drop (List.mem_of_mem_take hv)))]
    rw [show (0 : Nat) + LSBLayer.writeCount (textToBinary s) f0 0 0 =
      min (textToBinary s).length (w * h * 3 - 32) from by rw [hwc0]; omega]
    have hloop := LSBLayer.readLoop_writeGo (textToBinary s) (w * h * 3) rest
      (min (textToBinary s).length (w * h * 3 - 32)) 1 (by omega) hszr hvr
      (by omega) (by omega)
    rw [hloop, List.take_append_drop, binaryToText_textToBinary s hchar]

/-- Claim C1 is false on the code over all byte payloads in capacity: the
3-byte UTF-8 payload of U+20AC (bit length 24, and 0 < 24 + 32 ≤ 60 on a
one-frame 5x4 video) decodes to one character for which
`format(ord(c), '08b')` emits 14 bits, so the write/read round trip
returns the 2 bytes [194, 130] instead of the payload. -/
theorem claim_c1_counterexample :
    (LSBLayer.write 5 4 [List.replicate 60 0] [226, 130, 172]).bind
        (fun out => LSBLayer.read out 1000) = .ok (some [194, 130]) ∧
    [194, 130] ≠ [226, 130, 172] ∧
    0 < 8 * 3 + 32 ∧ 8 * 3 + 32 ≤ 5 * 4 * 3 * 1 :=
  ⟨rfl, by decide, by decide, by decide⟩

/-- Witness for claim C1 (amended): a 2-frame 4x3 video carrying the
one-byte payload "A" round-trips exactly. -/
theorem claim_c1_roundtrip_witness :
    ∃ out, LSBLayer.write 4 3 [List.replicate 36 0, List.replicate 36 5]
        (utf8Encode [65]) = .ok out ∧
      LSBLayer.read out 1000 = .ok (some (utf8Encode [65])) :=
  claim_c1_roundtrip 4 3 [List.replicate 36 0, List.replicate 36 5] [65]
    (by decide) (by decide) (by decide) (by decide) (by decide) (by decide)
    (by decide) (by decide)

/-- Claim C6: the 32-bit LengthHeader occupies exactly flattened samples
0-31 of frame 0 of the written video — those positions hold the header
embedded over the original first 32 samples, independent of the payload,
whose embedding starts at offset 32 — and `read`'s decoded LengthHeader
is a function of frame-0 samples 0-31 alone, so two videos agreeing
there decode the same header value. -/
theorem claim_c6_header (w h : Nat) (f0 : List Nat) (rest : List (List Nat))
    (s : List Nat)
    (hf0S : f0.length = w * h * 3)
    (h32 : 32 ≤ w * h * 3)
    (hchar : ∀ c ∈ s, c < 256)
    (hpos : 0 < s.length)
    (hcap : 8 * s.length + 32 ≤ w * h * 3 * (f0 :: rest).length)
    (hhdr : 8 * s.length < 2 ^ 32)
    (a b : List Nat)
    (hagree : a.take 32 = b.take 32) :
    (∃ f1 out1, LSBLayer.write w h (f0 :: rest) (utf8Encode s) =
        .ok (f1 :: out1) ∧
      f1.take 32 = embedFrom (f0.take 32) (pyBinPad (8 * s.length) 32)) ∧
    LSBLayer.decodedHeader a = LSBLayer.decodedHeader b := by
  constructor
  · have hbits : (textToBinary s).length = 8 * s.length :=
      textToBinary_length s hchar
    have hlen32 : (pyBinPad (textToBinary s).length 32).length = 32 := by
      rw [hbits]
      exact pyBinPad_length _ 32 hhdr
    simp only [LSBLayer.write, utf8Decode_encode_latin1 s hchar]
    rw [if_neg (by omega)]
    rw [LSBLayer.writeGo, if_pos (by omega)]
    refine ⟨_, _, rfl, ?_⟩
    rw [LSBLayer.writeFrame0_take32 _ f0 0 (by omega) hlen32, hbits]
  · rw [LSBLayer.decodedHeader, LSBLayer.decodedHeader, hagree]

/-- Witness for claim C6 at a concrete 2-frame 4x3 video and two reads
agreeing on frame-0 samples 0-31. -/
theorem claim_c6_header_witness :
    (∃ f1 out1, LSBLayer.write 4 3
        [List.replicate 36 0, List.replicate 36 0] (utf8Encode [65]) =
        .ok (f1 :: out1) ∧
      f1.take 32 = embedFrom ((List.replicate 36 0).take 32)
        (pyBinPad (8 * [65].length) 32)) ∧
    LSBLayer.decodedHeader (List.replicate 40 7) =
      LSBLayer.decodedHeader (List.replicate 40 7 ++ [9]) :=
  claim_c6_header 4 3 (List.replicate 36 0) [List.replicate 36 0] [65]
    (by decide) (by decide) (by decide) (by decide) (by decide) (by decide)
    (List.replicate 40 7) (List.replicate 40 7 ++ [9]) (by decide)

theorem readLoop_length : ∀ (fs : List (List Nat)) (needed : Nat),
    (LSBLayer.readLoop fs needed).length =
      min needed ((fs.map List.length).sum) := by
  intro fs
  induction fs with
  | nil => intro needed; simp [LSBLayer.readLoop]
  | cons f rest ih =>
    intro needed
    rw [LSBLayer.readLoop]
    by_cases h0 : needed = 0
    · simp [h0]
    · rw [if_neg h0]
      simp only [List.length_append, List.length_map, List.map_cons,
        List.sum_cons, List.length_take, ih]
      omega


/-- Claim C4 is false on the code: a single 48-sample frame whose header
declares 100 bits (within the sanity bound, since 100 ≤ 1000 * 48)
exhausts the source after 16 payload bits, yet `read` does not fail
with DecodingError — it silently returns the 2 bytes assembled from the
16 collected bits. -/
theorem claim_c4_counterexample :
    LSBLayer.read [c4frame0] 1000 = .ok (some [65, 66]) ∧
    LSBLayer.decodedHeader c4frame0 = 100 ∧
    8 * 2 < 100 ∧ c4frame0.length = 48 :=
  ⟨rfl, rfl, by decide, rfl⟩

/-- Claim C4 (amended): when the declared length L passes the sanity
check but the frame source is exhausted before L bits are collected,
`read` does not fail: it returns `some` payload assembled from the bits
actually collected — strictly fewer than L bits, a silently truncated
result. -/
theorem claim_c4_truncated (f0 : List Nat) (rest : List (List Nat))
    (h32 : 32 ≤ f0.length)
    (hpos : 0 < LSBLayer.decodedHeader f0)
    (hsan : LSBLayer.decodedHeader f0 ≤ 1000 * f0.length)
    (hex : (f0.length - 32) + (rest.map List.length).sum <
      LSBLayer.decodedHeader f0) :
    ∃ cs, LSBLayer.read (f0 :: rest) 1000 = .ok (some (utf8Encode cs)) ∧
      8 * cs.length < LSBLayer.decodedHeader f0 := by
  rw [LSBLayer.read, if_neg (by omega), if_neg (by omega)]
  refine ⟨_, rfl, ?_⟩
  rw [binaryToText_length, List.length_append, List.length_map,
    List.length_take, List.length_drop, readLoop_length]
  omega

/-- Witness for claim C4 (amended) at the concrete exhausted video. -/
theorem claim_c4_truncated_witness :
    ∃ cs, LSBLayer.read [c4frame0] 1000 = .ok (some (utf8Encode cs)) ∧
      8 * cs.length < LSBLayer.decodedHeader c4frame0 :=
  claim_c4_truncated c4frame0 [] (by decide) (by decide) (by decide)
    (by decide)
